import Mathlib

/-!
Shallow embedding of the SlateRanker Monte Carlo projection engine
(`src/lib/projections.ts`) and the slate-analysis series preparer
(`src/lib/analyzeSlate.ts`), together with proofs of the specification
claims about them.

Modelling conventions:
* JavaScript `number` arithmetic is idealised as real arithmetic (`ℝ`).
  Non-finite values (`NaN`, `±Infinity`) are modelled by the dedicated
  constructors of `JsNum`, since the engine only ever asks
  `Number.isFinite` of a raw series entry before coercing it.
* The engine's source of randomness (`randn(prng)`, a Box–Muller normal
  variate generator over either `Math.random` or `mulberry32(seed)`) is
  modelled by an explicit stream `ℕ → ℝ` of normal draws: the ambient
  stream stands for the process-wide `Math.random`-backed generator, and
  seeded runs replace it with the stream derived from `mulberry32`.
* `Math.round` is round-half-up toward `+∞`, which is exactly Mathlib's
  `round` (`round x = ⌊x + 1/2⌋`).
* The `for (let i = 0; i < simulations; i++)` loop executes
  `max 0 ⌈simulations⌉` iterations; `simulations` is modelled as `ℕ`
  (the iteration count), with `0` covering every non-positive input.
-/

namespace SlateRanker

/-- A JavaScript number as seen by the engine's input-cleaning step:
either a finite real or one of the non-finite values. -/
inductive JsNum where
  | fin (v : ℝ)
  | nan
  | posInf
  | negInf

/-- `Number.isFinite`. -/
def JsNum.isFinite : JsNum → Bool
  | .fin _ => true
  | _ => false

/-- The engine's coercion `v => (Number.isFinite(v) ? v : 0)`. -/
noncomputable def JsNum.coerce : JsNum → ℝ
  | .fin v => v
  | _ => 0

/-- `clamp(n, min, max) = Math.max(min, Math.min(max, n))` from projections.ts. -/
noncomputable def clamp (n lo hi : ℝ) : ℝ := max lo (min hi n)

/-- `mean` from projections.ts: `0` on the empty list, else the sum divided by
the length. -/
noncomputable def mean (arr : List ℝ) : ℝ :=
  if arr = [] then 0 else arr.sum / arr.length

/-- `variance` from projections.ts: `0` when fewer than two entries, else the
sum of squared deviations from the mean divided by `length - 1`
(Bessel's correction). -/
noncomputable def variance (arr : List ℝ) : ℝ :=
  if arr.length < 2 then 0
  else ((arr.map fun v => (v - mean arr) * (v - mean arr)).sum) / (arr.length - 1)

/-- `stdev` from projections.ts. -/
noncomputable def stdev (arr : List ℝ) : ℝ := Real.sqrt (variance arr)

/-- `Math.round(x * 10) / 10`: round to one decimal place. -/
noncomputable def round1 (x : ℝ) : ℝ := (round (x * 10) : ℤ) / 10

/-- The interpolation core of `percentile`: the value at fractional index
`idx` of the array, interpolated linearly between the entries at `⌊idx⌋` and
`⌈idx⌉`.  Array indexing `sorted[i]` is modelled by `getD _ 0` (all accesses
are in bounds for index arguments in `[0, length - 1]`). -/
noncomputable def interpAt (sorted : List ℝ) (idx : ℚ) : ℝ :=
  let lo : ℤ := ⌊idx⌋
  let hi : ℤ := ⌈idx⌉
  if lo = hi then sorted.getD lo.toNat 0
  else
    sorted.getD lo.toNat 0 * (1 - ((idx - lo : ℚ) : ℝ))
      + sorted.getD hi.toNat 0 * ((idx - lo : ℚ) : ℝ)

/-- `percentile(sorted, p)` from projections.ts: type-7 linear interpolation
between the two order statistics bracketing index `(length - 1) * p`.
The percentile argument is a rational (the engine only passes 0.10 / 0.50 /
0.90). -/
noncomputable def percentile (sorted : List ℝ) (p : ℚ) : ℝ :=
  if sorted = [] then 0
  else interpAt sorted ((sorted.length - 1) * p)

/-! ### The mulberry32 PRNG and the Box–Muller normal stream

JavaScript 32-bit integer semantics: every bitwise operation acts on the low
32 bits of its operands, and the bit pattern of any intermediate signed or
unsigned 32-bit value is its value modulo 2³², so the whole generator is
faithfully computed on naturals reduced modulo 2³². -/

/-- State update `t += 0x6D2B79F5` of `mulberry32`, on 32-bit patterns. -/
def mbNext (t : ℕ) : ℕ := (t + 0x6D2B79F5) % 2 ^ 32

/-- Output computation of `mulberry32` from the (already updated) state `t`:
`r = Math.imul(t ^ (t >>> 15), 1 | t); r ^= r + Math.imul(r ^ (r >>> 7), 61 | r);
return ((r ^ (r >>> 14)) >>> 0) / 4294967296`, on 32-bit patterns. -/
def mbOut (t : ℕ) : ℚ :=
  let r1 := ((t ^^^ (t >>> 15)) * (1 ||| t)) % 2 ^ 32
  let r2 := (r1 ^^^ ((r1 + (((r1 ^^^ (r1 >>> 7)) * (61 ||| r1)) % 2 ^ 32)) % 2 ^ 32)) % 2 ^ 32
  ((r2 ^^^ (r2 >>> 14)) % 2 ^ 32 : ℕ) / 4294967296

/-- The `k`-th raw output (in `[0,1)`) of `mulberry32(seed)`: the state is
first coerced to a 32-bit unsigned value (`seed >>> 0`), and each call first
updates the state and then computes the output. -/
def mbRaw (seed : ℕ) (k : ℕ) : ℚ := mbOut (mbNext^[k + 1] (seed % 2 ^ 32))

open Classical in
/-- The index of the first nonzero value of the stream `f` at or after `i`:
this is the `while (u === 0) u = prng();` retry loop of `randn`.  (If the
stream had no nonzero value the JavaScript loop would diverge; the model
returns `i` in that vacuous case.) -/
noncomputable def skipZeros (f : ℕ → ℚ) (i : ℕ) : ℕ :=
  if h : ∃ k, f (i + k) ≠ 0 then i + Nat.find h else i

/-- One Box–Muller draw of `randn`, reading the raw stream `f` starting at
position `i`: `u` and `v` are the first two nonzero raw values, and the
result is `sqrt(-2 ln u) * cos(2π v)`, together with the next unread
position. -/
noncomputable def randnIdx (f : ℕ → ℚ) (i : ℕ) : ℝ × ℕ :=
  let j1 := skipZeros f i
  let j2 := skipZeros f (j1 + 1)
  (Real.sqrt (-2 * Real.log (f j1)) * Real.cos (2 * Real.pi * (f j2)), j2 + 1)

/-- The `n`-th normal draw obtained by iterating `randn` over the raw
stream `f`, together with the stream position after it. -/
noncomputable def drawState (f : ℕ → ℚ) : ℕ → ℝ × ℕ
  | 0 => randnIdx f 0
  | n + 1 => randnIdx f (drawState f n).2

/-- The stream of normal draws produced by `randn` over the raw stream `f`. -/
noncomputable def normalStream (f : ℕ → ℚ) (n : ℕ) : ℝ := (drawState f n).1

/-- The deterministic stream of normal draws of a seeded run:
`randn(mulberry32(seed))`. -/
noncomputable def seededDraws (seed : ℕ) : ℕ → ℝ := normalStream (mbRaw seed)

/-! ### Engine input and output records -/

/-- Bet direction. -/
inductive PropDirection where
  | OVER
  | UNDER
deriving DecidableEq

/-- Volatility bucket. -/
inductive Volatility where
  | LOW
  | MODERATE
  | HIGH
deriving DecidableEq

/-- `ProjectionInputs` from projections.ts, with the source's default values
(`simulations = 5000`, `clampMin = 0`, no seed). -/
structure ProjectionInputs where
  series : List JsNum
  line : ℝ
  direction : PropDirection
  simulations : ℕ := 5000
  clampMin : ℝ := 0
  rngSeed : Option ℕ := none

/-- One histogram bin. -/
structure HistogramBin where
  x0 : ℝ
  x1 : ℝ
  count : ℕ

/-- `ProjectionResult` from projections.ts. `confidence` is an integer
(`Math.round` output). -/
structure ProjectionResult where
  projection : ℝ
  probability : ℝ
  edge : ℝ
  floor : ℝ
  median : ℝ
  ceiling : ℝ
  stdev : ℝ
  volatility : Volatility
  confidence : ℤ
  samplesPreview : List ℝ
  histogram : List HistogramBin

/-- `volatilityBucket(seriesStdev, seriesMean)`: coefficient of variation
with the denominator floored at 1, bucketed at 0.30 and 0.55. -/
noncomputable def volatilityBucket (seriesStdev seriesMean : ℝ) : Volatility :=
  let denom := max 1 |seriesMean|
  let cv := seriesStdev / denom
  if cv < 0.30 then .LOW
  else if cv < 0.55 then .MODERATE
  else .HIGH

/-- The multiplicative volatility penalty used by `confidenceScore`. -/
noncomputable def volPenalty : Volatility → ℝ
  | .LOW => 1
  | .MODERATE => 0.75
  | .HIGH => 0.55

/-- `confidenceScore(probability, seriesLen, vol)` from projections.ts:
`round((100 * |p - 0.5| * 2 * 0.65 + 100 * clamp(len/20, 0, 1) * 0.35) * penalty)`.
Note: the source applies no clamp to the final rounded value. -/
noncomputable def confidenceScore (probability : ℝ) (seriesLen : ℕ) (vol : Volatility) : ℤ :=
  let probStrength := |probability - 0.5| * 2
  let sampleStrength := clamp ((seriesLen : ℝ) / 20) 0 1
  let score := 100 * probStrength * 0.65 + 100 * sampleStrength * 0.35
  round (score * volPenalty vol)

/-- Increment the count of the `i`-th histogram bin. -/
def bumpBin : List HistogramBin → ℕ → List HistogramBin
  | [], _ => []
  | b :: bs, 0 => { b with count := b.count + 1 } :: bs
  | b :: bs, n + 1 => b :: bumpBin bs n

/-- `buildHistogram(samples, binCount)` from projections.ts: empty input
gives no bins, a constant sample set gives one bin, otherwise `binCount`
equal-width bins over `[min, max]` with each sample counted in the bin
`min(binCount - 1, max(0, floor((s - min)/width)))`. -/
noncomputable def buildHistogram (samples : List ℝ) (binCount : ℕ) : List HistogramBin :=
  match samples with
  | [] => []
  | x :: xs =>
    let mn := xs.foldl min x
    let mx := xs.foldl max x
    if mn = mx then [⟨mn, mx, samples.length⟩]
    else
      let width := (mx - mn) / binCount
      let bins := (List.range binCount).map fun i =>
        ⟨mn + i * width, mn + (i + 1) * width, 0⟩
      samples.foldl
        (fun bs s => bumpBin bs (min (binCount - 1) (max 0 ⌊(s - mn) / width⌋).toNat))
        bins

/-- The cleaning step at the head of `monteCarloProject`:
`(series || []).map(v => Number.isFinite(v) ? v : 0).filter(v => v >= 0)`. -/
noncomputable def cleanOf (series : List JsNum) : List ℝ :=
  (series.map JsNum.coerce).filter fun v => decide (0 ≤ v)

/-- The simulation spread: the series stdev, except that a zero stdev (flat
or short series) is replaced by `Math.max(0.75, m * 0.10)`. -/
noncomputable def simSdOf (clean : List ℝ) : ℝ :=
  if stdev clean = 0 then max 0.75 (mean clean * 0.10) else stdev clean

/-- The simulation loop's sample list: the `i`-th sample is
`Math.round(Math.max(clampMin, m + z_i * simSd) * 10) / 10` where `z_i` is the
`i`-th normal draw. -/
noncomputable def runSamples (m simSd clampMin : ℝ) (simulations : ℕ)
    (draws : ℕ → ℝ) : List ℝ :=
  (List.range simulations).map fun i => round1 (max clampMin (m + draws i * simSd))

/-- One iteration of the hit counter: mirrors the two
`if (direction === ... && ...) hits += 1;` statements executed per sample. -/
noncomputable def hitStep (line : ℝ) (direction : PropDirection)
    (hits : ℕ) (value : ℝ) : ℕ :=
  let over := line < value
  let under := value < line
  let hits1 := if direction = .OVER ∧ over then hits + 1 else hits
  if direction = .UNDER ∧ under then hits1 + 1 else hits1

/-- The simulation loop's hit counter. -/
noncomputable def countHits (line : ℝ) (direction : PropDirection)
    (samples : List ℝ) : ℕ :=
  samples.foldl (hitStep line direction) 0

/-- Ascending insertion: stable insertion into an ascending-sorted list.
`samples.sort((a, b) => a - b)` is modelled by insertion sort; both are
stable sorts for the same total preorder, hence produce the same list. -/
noncomputable def insertAsc (x : ℝ) : List ℝ → List ℝ
  | [] => [x]
  | h :: t => if x ≤ h then x :: h :: t else h :: insertAsc x t

/-- Ascending (numeric) sort of the sample list. -/
noncomputable def sortAsc : List ℝ → List ℝ
  | [] => []
  | x :: xs => insertAsc x (sortAsc xs)

/-- The draw stream a run uses: the `mulberry32(seed)`-derived stream when a
seed is supplied, otherwise the ambient (`Math.random`-backed) stream. -/
noncomputable def mcDraws (input : ProjectionInputs) (ambient : ℕ → ℝ) : ℕ → ℝ :=
  match input.rngSeed with
  | some s => seededDraws s
  | none => ambient

/-- Body of `monteCarloProject` after input destructuring and cleaning,
parameterised by the cleaned series and the draw stream. -/
noncomputable def mcOfClean (clean : List ℝ) (line : ℝ) (direction : PropDirection)
    (simulations : ℕ) (clampMin : ℝ) (draws : ℕ → ℝ) : ProjectionResult :=
  let n := clean.length
  let m := mean clean
  let sd := stdev clean
  let simSd := simSdOf clean
  let samples := runSamples m simSd clampMin simulations draws
  let hits := countHits line direction samples
  let sorted := sortAsc samples
  let p10 := percentile sorted (1 / 10)
  let p50 := percentile sorted (1 / 2)
  let p90 := percentile sorted (9 / 10)
  let proj := mean sorted
  let prob : ℝ := (hits : ℝ) / (simulations : ℝ)
  let edge := match direction with
    | .OVER => proj - line
    | .UNDER => line - proj
  let vol := volatilityBucket sd m
  let conf := confidenceScore prob n vol
  { projection := round1 proj
    probability := (round (prob * 1000) : ℤ) / 10
    edge := round1 edge
    floor := round1 p10
    median := round1 p50
    ceiling := round1 p90
    stdev := round1 sd
    volatility := vol
    confidence := conf
    samplesPreview := sorted.take 50
    histogram := buildHistogram sorted 12 }

/-- `monteCarloProject(input)` from projections.ts, taking the ambient normal
draw stream as an explicit parameter (see the module comment). -/
noncomputable def monteCarloProject (input : ProjectionInputs) (ambient : ℕ → ℝ) :
    ProjectionResult :=
  mcOfClean (cleanOf input.series) input.line input.direction input.simulations
    input.clampMin (mcDraws input ambient)

/-- The sample list of a run of the engine. -/
noncomputable def mcSamples (input : ProjectionInputs) (ambient : ℕ → ℝ) : List ℝ :=
  runSamples (mean (cleanOf input.series)) (simSdOf (cleanOf input.series))
    input.clampMin input.simulations (mcDraws input ambient)

/-- The hit count of a run of the engine. -/
noncomputable def mcHits (input : ProjectionInputs) (ambient : ℕ → ℝ) : ℕ :=
  countHits input.line input.direction (mcSamples input ambient)

/-! ### Series preparer (`src/lib/analyzeSlate.ts`)

A `GameLog` record, after the numeric coercions the preparer applies on
access (`num(...)` maps missing or non-numeric fields to 0, `minutesToNum`
turns `"36:12"` into `36`).  The `date` field is an ISO-8601 date string in
the source, compared with `localeCompare`; for such strings the locale
comparison coincides with the chronological order, so the date is modelled
as a linearly ordered key (`ℕ`). -/
structure GameLog where
  date : ℕ
  minutes : ℚ
  pts : ℚ
  reb : ℚ
  ast : ℚ
  stl : ℚ
  blk : ℚ
  threePM : ℚ
  fg3a : ℚ
  tov : ℚ
deriving DecidableEq

/-- The stat keys of `SlateProp.statType` (`3PM`/`3PA` are spelled
`TPM`/`TPA`). -/
inductive StatType where
  | PTS | REB | AST | STL | BLK | TPM | TPA | TO | PRA | PR | PA | RA
deriving DecidableEq

/-- The `switch (statType)` of `seriesFromLogs`, mapping one playable log to
the numeric value of the requested stat (composite keys are sums). -/
def statValue (g : GameLog) : StatType → ℚ
  | .PTS => g.pts
  | .REB => g.reb
  | .AST => g.ast
  | .STL => g.stl
  | .BLK => g.blk
  | .TPM => g.threePM
  | .TPA => g.fg3a
  | .TO => g.tov
  | .PRA => g.pts + g.reb + g.ast
  | .PR => g.pts + g.reb
  | .PA => g.pts + g.ast
  | .RA => g.reb + g.ast

/-- `filterPlayableLogs(logs)`: drop every record whose minutes are not
strictly positive (DNP / inactive appearances). -/
def filterPlayableLogs (logs : List GameLog) : List GameLog :=
  logs.filter fun g => decide (0 < g.minutes)

/-- Stable descending insertion by date: the new record is placed before the
first record whose date is not later than its own, so a record keeps its
place before every equally dated record that followed it in the input. -/
def insertLog (g : GameLog) : List GameLog → List GameLog
  | [] => [g]
  | h :: t => if h.date ≤ g.date then g :: h :: t else h :: insertLog g t

/-- `[...logs].sort((a, b) => b.date.localeCompare(a.date))`: a stable sort
by date descending, modelled by stable insertion sort (JavaScript's `sort`
is stable, and any two stable sorts for the same preorder agree). -/
def sortLogsDesc : List GameLog → List GameLog
  | [] => []
  | g :: t => insertLog g (sortLogsDesc t)

/-- The output record of `seriesFromLogs`. -/
structure PreparedSeries where
  series : List ℚ
  dates : List ℕ
  minutes : List ℚ
deriving DecidableEq

/-- `seriesFromLogs(logsRaw, statType)`: filter out non-playable logs, sort
newest first, then map each surviving record to the requested stat value
(collecting dates and minutes alongside). -/
def seriesFromLogs (logsRaw : List GameLog) (statType : StatType) : PreparedSeries :=
  let logs := filterPlayableLogs logsRaw
  let sorted := sortLogsDesc logs
  { series := sorted.map fun g => statValue g statType
    dates := sorted.map fun g => g.date
    minutes := sorted.map fun g => g.minutes }

/-! ### Basic helper lemmas -/

lemma getD_eq_get_of_lt (l : List ℝ) (k : ℕ) (h : k < l.length) :
    l.getD k 0 = l.get ⟨k, h⟩ := by
  simp [List.getD, List.getElem?_eq_getElem h]

lemma sorted_getD_le (l : List ℝ) (hl : l.Sorted (· ≤ ·)) (i j : ℕ)
    (hij : i ≤ j) (hj : j < l.length) : l.getD i 0 ≤ l.getD j 0 := by
  rw [getD_eq_get_of_lt l i (lt_of_le_of_lt hij hj), getD_eq_get_of_lt l j hj]
  exact List.Sorted.rel_get_of_le hl hij

lemma round_mono {x y : ℝ} (h : x ≤ y) : round x ≤ round y := by
  rw [round_eq, round_eq]
  exact Int.floor_mono (by linarith)

lemma round1_mono {x y : ℝ} (h : x ≤ y) : round1 x ≤ round1 y := by
  unfold round1
  have h2 : round (x * 10) ≤ round (y * 10) := round_mono (by linarith)
  have h3 : ((round (x * 10) : ℤ) : ℝ) ≤ ((round (y * 10) : ℤ) : ℝ) := by exact_mod_cast h2
  linarith

/-! ### The hit-counting fold equals a strict count -/

lemma hitStep_eq (line : ℝ) (direction : PropDirection) (hits : ℕ) (value : ℝ) :
    hitStep line direction hits value
      = hits + (if direction = .OVER ∧ line < value then 1 else 0)
        + (if direction = .UNDER ∧ value < line then 1 else 0) := by
  unfold hitStep
  rcases direction with _ | _ <;> by_cases hov : line < value <;>
    by_cases hun : value < line <;> simp [hov, hun]

lemma foldl_hitStep_acc (line : ℝ) (direction : PropDirection) (l : List ℝ) :
    ∀ a : ℕ, l.foldl (hitStep line direction) a
      = a + l.foldl (hitStep line direction) 0 := by
  induction l with
  | nil => intro a; simp
  | cons x xs ih =>
    intro a
    simp only [List.foldl_cons]
    rw [ih, ih (hitStep line direction 0 x), hitStep_eq, hitStep_eq]
    omega

lemma countHits_over (line : ℝ) (l : List ℝ) :
    countHits line .OVER l = l.countP fun v => decide (line < v) := by
  induction l with
  | nil => rfl
  | cons x xs ih =>
    unfold countHits at *
    simp only [List.foldl_cons]
    rw [foldl_hitStep_acc, ih, hitStep_eq]
    by_cases h : line < x <;> simp [List.countP_cons, h] <;> omega

lemma countHits_under (line : ℝ) (l : List ℝ) :
    countHits line .UNDER l = l.countP fun v => decide (v < line) := by
  induction l with
  | nil => rfl
  | cons x xs ih =>
    unfold countHits at *
    simp only [List.foldl_cons]
    rw [foldl_hitStep_acc, ih, hitStep_eq]
    by_cases h : x < line <;> simp [List.countP_cons, h] <;> omega

lemma countHits_le_length (line : ℝ) (direction : PropDirection) (l : List ℝ) :
    countHits line direction l ≤ l.length := by
  rcases direction with _ | _
  · rw [countHits_over]; exact List.countP_le_length _
  · rw [countHits_under]; exact List.countP_le_length _

/-! ### Sample sorting lemmas -/

lemma insertAsc_length (x : ℝ) (l : List ℝ) :
    (insertAsc x l).length = l.length + 1 := by
  induction l with
  | nil => rfl
  | cons h t ih =>
    unfold insertAsc
    by_cases hx : x ≤ h <;> simp [hx, ih]

lemma sortAsc_length (l : List ℝ) : (sortAsc l).length = l.length := by
  induction l with
  | nil => rfl
  | cons h t ih => unfold sortAsc; rw [insertAsc_length, ih]; rfl

lemma insertAsc_mem (x : ℝ) (l : List ℝ) (y : ℝ) (hy : y ∈ insertAsc x l) :
    y = x ∨ y ∈ l := by
  induction l with
  | nil => simpa [insertAsc] using hy
  | cons a s ih =>
    unfold insertAsc at hy
    by_cases hxa : x ≤ a
    · rw [if_pos hxa] at hy
      rcases List.mem_cons.mp hy with hy | hy
      · exact Or.inl hy
      · exact Or.inr hy
    · rw [if_neg hxa] at hy
      rcases List.mem_cons.mp hy with hy | hy
      · exact Or.inr (hy ▸ List.mem_cons_self a s)
      · rcases ih hy with hz | hz
        · exact Or.inl hz
        · exact Or.inr (List.mem_cons_of_mem a hz)

lemma insertAsc_sorted (x : ℝ) (l : List ℝ) (hl : l.Sorted (· ≤ ·)) :
    (insertAsc x l).Sorted (· ≤ ·) := by
  induction l with
  | nil => simp [insertAsc]
  | cons h t ih =>
    unfold insertAsc
    rcases List.sorted_cons.mp hl with ⟨hht, hts⟩
    by_cases hx : x ≤ h
    · rw [if_pos hx]
      refine List.sorted_cons.mpr ⟨?_, hl⟩
      intro b hb
      rcases List.mem_cons.mp hb with hb | hb
      · exact hb ▸ hx
      · exact hx.trans (hht b hb)
    · rw [if_neg hx]
      refine List.sorted_cons.mpr ⟨?_, ih hts⟩
      intro b hb
      rcases insertAsc_mem x t b hb with hb' | hb'
      · exact hb' ▸ le_of_not_le hx
      · exact hht b hb'

lemma sortAsc_sorted (l : List ℝ) : (sortAsc l).Sorted (· ≤ ·) := by
  induction l with
  | nil => exact List.sorted_nil
  | cons h t ih => exact insertAsc_sorted h (sortAsc t) ih

/-! ### Log sorting lemmas: permutation, sortedness, stability -/

lemma insertLog_perm (g : GameLog) (l : List GameLog) :
    (insertLog g l).Perm (g :: l) := by
  induction l with
  | nil => exact List.Perm.refl _
  | cons h t ih =>
    unfold insertLog
    by_cases hd : h.date ≤ g.date
    · rw [if_pos hd]
    · rw [if_neg hd]
      exact (List.Perm.cons h ih).trans (List.Perm.swap g h t)

lemma sortLogsDesc_perm (l : List GameLog) : (sortLogsDesc l).Perm l := by
  induction l with
  | nil => exact List.Perm.refl _
  | cons g t ih =>
    exact (insertLog_perm g (sortLogsDesc t)).trans (List.Perm.cons g ih)

lemma insertLog_mem (g : GameLog) (l : List GameLog) (y : GameLog)
    (hy : y ∈ insertLog g l) : y = g ∨ y ∈ l := by
  rcases List.mem_cons.mp ((insertLog_perm g l).subset hy) with h' | h'
  · exact Or.inl h'
  · exact Or.inr h'

lemma insertLog_sorted (g : GameLog) (l : List GameLog)
    (hl : l.Sorted fun a b => b.date ≤ a.date) :
    (insertLog g l).Sorted fun a b => b.date ≤ a.date := by
  induction l with
  | nil => simp [insertLog]
  | cons h t ih =>
    unfold insertLog
    rcases List.sorted_cons.mp hl with ⟨hht, hts⟩
    by_cases hd : h.date ≤ g.date
    · rw [if_pos hd]
      refine List.sorted_cons.mpr ⟨?_, hl⟩
      intro b hb
      rcases List.mem_cons.mp hb with hb | hb
      · exact hb ▸ hd
      · exact (hht b hb).trans hd
    · rw [if_neg hd]
      refine List.sorted_cons.mpr ⟨?_, ih hts⟩
      intro b hb
      rcases insertLog_mem g t b hb with hb' | hb'
      · exact hb' ▸ le_of_not_le hd
      · exact hht b hb'

lemma sortLogsDesc_sorted (l : List GameLog) :
    (sortLogsDesc l).Sorted fun a b => b.date ≤ a.date := by
  induction l with
  | nil => exact List.sorted_nil
  | cons g t ih => exact insertLog_sorted g (sortLogsDesc t) ih

lemma insertLog_filter_date (g : GameLog) (l : List GameLog) (d : ℕ) :
    (insertLog g l).filter (fun x => decide (x.date = d))
      = (g :: l).filter fun x => decide (x.date = d) := by
  induction l with
  | nil => rfl
  | cons h t ih =>
    unfold insertLog
    by_cases hd : h.date ≤ g.date
    · rw [if_pos hd]
    · rw [if_neg hd]
      have hgd : g.date < h.date := lt_of_not_le hd
      by_cases hh : h.date = d <;> by_cases hg : g.date = d
      · exact absurd hg (by omega)
      · simp [List.filter_cons, hh, hg, ih]
      · simp [List.filter_cons, hh, hg, ih]
      · simp [List.filter_cons, hh, hg, ih]

lemma sortLogsDesc_filter_date (l : List GameLog) (d : ℕ) :
    (sortLogsDesc l).filter (fun x => decide (x.date = d))
      = l.filter fun x => decide (x.date = d) := by
  induction l with
  | nil => rfl
  | cons g t ih =>
    show (insertLog g (sortLogsDesc t)).filter _ = _
    rw [insertLog_filter_date]
    by_cases hg : g.date = d <;> simp [List.filter_cons, hg, ih]

/-! ### Evaluation helpers for constant (replicate) runs -/

lemma mean_replicate (n : ℕ) (a : ℝ) (hn : n ≠ 0) :
    mean (List.replicate n a) = a := by
  unfold mean
  rw [if_neg (by simp [List.replicate_eq_nil_iff, hn])]
  rw [List.sum_replicate, List.length_replicate, nsmul_eq_mul]
  field_simp

lemma variance_replicate (n : ℕ) (a : ℝ) :
    variance (List.replicate n a) = 0 := by
  unfold variance
  by_cases hn : (List.replicate n a).length < 2
  · rw [if_pos hn]
  · rw [if_neg hn]
    have hn0 : n ≠ 0 := by
      simp only [List.length_replicate] at hn
      omega
    rw [mean_replicate n a hn0, List.map_replicate]
    simp

lemma stdev_replicate (n : ℕ) (a : ℝ) : stdev (List.replicate n a) = 0 := by
  unfold stdev
  rw [variance_replicate, Real.sqrt_zero]

lemma runSamples_zeroDraws (m simSd clampMin : ℝ) (sims : ℕ) :
    runSamples m simSd clampMin sims (fun _ => 0)
      = List.replicate sims (round1 (max clampMin m)) := by
  unfold runSamples
  simp [List.map_const']

lemma insertAsc_replicate_self (a : ℝ) (n : ℕ) :
    insertAsc a (List.replicate n a) = List.replicate (n + 1) a := by
  induction n with
  | zero => rfl
  | succ k ih =>
    show insertAsc a (a :: List.replicate k a) = _
    unfold insertAsc
    rw [if_pos le_rfl]
    rfl

lemma sortAsc_replicate (n : ℕ) (a : ℝ) :
    sortAsc (List.replicate n a) = List.replicate n a := by
  induction n with
  | zero => rfl
  | succ k ih =>
    show insertAsc a (sortAsc (List.replicate k a)) = _
    rw [ih, insertAsc_replicate_self]

lemma getD_replicate (n : ℕ) (a : ℝ) (k : ℕ) (hk : k < n) :
    (List.replicate n a).getD k 0 = a := by
  rw [getD_eq_get_of_lt _ k (by simpa using hk)]
  simp

lemma interpAt_replicate (n : ℕ) (a : ℝ) (idx : ℚ) (h0 : 0 ≤ idx)
    (hn : idx ≤ (n : ℚ) - 1) : interpAt (List.replicate n a) idx = a := by
  have hn1 : 1 ≤ n := by
    by_contra h
    interval_cases n
    · simp at hn
      linarith
  have hlo0 : (0 : ℤ) ≤ ⌊idx⌋ := Int.floor_nonneg.mpr h0
  have hhi : ⌈idx⌉ ≤ (n : ℤ) - 1 := by
    rw [Int.ceil_le]
    push_cast
    exact hn
  have hlo : ⌊idx⌋ ≤ (n : ℤ) - 1 := (Int.floor_le_ceil idx).trans hhi
  have hlt1 : ⌊idx⌋.toNat < n := by omega
  have hlt2 : ⌈idx⌉.toNat < n := by
    have : (0 : ℤ) ≤ ⌈idx⌉ := hlo0.trans (Int.floor_le_ceil idx)
    omega
  unfold interpAt
  by_cases he : ⌊idx⌋ = ⌈idx⌉
  · rw [if_pos he, getD_replicate n a _ hlt1]
  · rw [if_neg he, getD_replicate n a _ hlt1, getD_replicate n a _ hlt2]
    ring

lemma percentile_replicate (n : ℕ) (a : ℝ) (p : ℚ) (hn : n ≠ 0)
    (hp0 : 0 ≤ p) (hp1 : p ≤ 1) :
    percentile (List.replicate n a) p = a := by
  unfold percentile
  rw [if_neg (by simp [List.replicate_eq_nil_iff, hn])]
  rw [List.length_replicate]
  have h1 : (1 : ℚ) ≤ (n : ℚ) := by exact_mod_cast Nat.one_le_iff_ne_zero.mpr hn
  apply interpAt_replicate
  · exact mul_nonneg (by linarith) hp0
  · nlinarith

/-! ### Percentile interpolation: bounds and monotonicity -/

lemma interpAt_between (s : List ℝ) (hs : s.Sorted (· ≤ ·)) (idx : ℚ)
    (h0 : 0 ≤ idx) (hn : idx ≤ (s.length : ℚ) - 1) :
    s.getD ⌊idx⌋.toNat 0 ≤ interpAt s idx ∧
      interpAt s idx ≤ s.getD ⌈idx⌉.toNat 0 := by
  have hn1 : (1 : ℚ) ≤ (s.length : ℚ) := by linarith
  have hlo0 : (0 : ℤ) ≤ ⌊idx⌋ := Int.floor_nonneg.mpr h0
  have hhi : ⌈idx⌉ ≤ (s.length : ℤ) - 1 := by
    rw [Int.ceil_le]
    push_cast
    exact hn
  have hlohi : ⌊idx⌋ ≤ ⌈idx⌉ := Int.floor_le_ceil idx
  have hhiN : ⌈idx⌉.toNat < s.length := by
    have : (1 : ℤ) ≤ (s.length : ℤ) := by exact_mod_cast hn1
    omega
  have hloN : ⌊idx⌋.toNat ≤ ⌈idx⌉.toNat := by omega
  have hab : s.getD ⌊idx⌋.toNat 0 ≤ s.getD ⌈idx⌉.toNat 0 :=
    sorted_getD_le s hs _ _ hloN hhiN
  unfold interpAt
  by_cases he : ⌊idx⌋ = ⌈idx⌉
  · rw [if_pos he]
    constructor
    · exact le_refl _
    · rw [he]
  · rw [if_neg he]
    have hw0 : (0 : ℚ) ≤ idx - ⌊idx⌋ := by
      have := Int.floor_le idx
      linarith
    have hw1 : idx - ⌊idx⌋ ≤ 1 := by
      have := Int.lt_floor_add_one idx
      push_cast at this ⊢
      linarith
    have hw0' : (0 : ℝ) ≤ ((idx - ⌊idx⌋ : ℚ) : ℝ) := by exact_mod_cast hw0
    have hw1' : ((idx - ⌊idx⌋ : ℚ) : ℝ) ≤ 1 := by exact_mod_cast hw1
    constructor
    · nlinarith
    · nlinarith

lemma interpAt_mono (s : List ℝ) (hs : s.Sorted (· ≤ ·)) (a b : ℚ)
    (h0 : 0 ≤ a) (hab : a ≤ b) (hb : b ≤ (s.length : ℚ) - 1) :
    interpAt s a ≤ interpAt s b := by
  have hb0 : 0 ≤ b := h0.trans hab
  have han : a ≤ (s.length : ℚ) - 1 := hab.trans hb
  by_cases hcase : ⌈a⌉ ≤ ⌊b⌋
  · have hbfN : ⌊b⌋.toNat < s.length := by
      have hc : ⌈b⌉ ≤ (s.length : ℤ) - 1 := by
        rw [Int.ceil_le]
        push_cast
        exact hb
      have h1 : ⌊b⌋ ≤ (s.length : ℤ) - 1 := (Int.floor_le_ceil b).trans hc
      have h2 : (1 : ℤ) ≤ (s.length : ℤ) := by
        have : (1 : ℚ) ≤ (s.length : ℚ) := by linarith
        exact_mod_cast this
      omega
    calc interpAt s a ≤ s.getD ⌈a⌉.toNat 0 := (interpAt_between s hs a h0 han).2
      _ ≤ s.getD ⌊b⌋.toNat 0 := sorted_getD_le s hs _ _ (by omega) hbfN
      _ ≤ interpAt s b := (interpAt_between s hs b hb0 hb).1
  · push_neg at hcase
    have hffloor : ⌊a⌋ = ⌊b⌋ := by
      have h1 : ⌊a⌋ ≤ ⌊b⌋ := Int.floor_mono hab
      have h2 : ⌈a⌉ ≤ ⌊a⌋ + 1 := Int.ceil_le_floor_add_one a
      omega
    by_cases hae : ⌊a⌋ = ⌈a⌉
    · have ha' : interpAt s a = s.getD ⌊a⌋.toNat 0 := by
        unfold interpAt
        rw [if_pos hae]
      rw [ha', hffloor]
      exact (interpAt_between s hs b hb0 hb).1
    · have hca : ⌈a⌉ = ⌊a⌋ + 1 := by
        have h2 : ⌈a⌉ ≤ ⌊a⌋ + 1 := Int.ceil_le_floor_add_one a
        have h3 : ⌊a⌋ ≤ ⌈a⌉ := Int.floor_le_ceil a
        omega
      have halt : (⌊a⌋ : ℚ) < a := by
        rcases lt_or_eq_of_le (Int.floor_le a) with h | h
        · exact h
        · exfalso
          apply hae
          rw [← h]
          simp
      have hblt : (⌊b⌋ : ℚ) < b := by
        rw [← hffloor]
        calc (⌊a⌋ : ℚ) < a := halt
          _ ≤ b := hab
      have hbe : ⌊b⌋ ≠ ⌈b⌉ := by
        intro h
        have h1 : b ≤ (⌈b⌉ : ℚ) := Int.le_ceil b
        rw [← h] at h1
        linarith
      have hcb : ⌈b⌉ = ⌊b⌋ + 1 := by
        have h2 : ⌈b⌉ ≤ ⌊b⌋ + 1 := Int.ceil_le_floor_add_one b
        have h3 : ⌊b⌋ ≤ ⌈b⌉ := Int.floor_le_ceil b
        omega
      have hhiN : ⌈a⌉.toNat < s.length := by
        have e1 : ⌈a⌉ ≤ (s.length : ℤ) - 1 := by
          rw [Int.ceil_le]
          push_cast
          exact han
        have e2 : (0 : ℤ) ≤ ⌊a⌋ := Int.floor_nonneg.mpr h0
        have e3 : (1 : ℤ) ≤ (s.length : ℤ) := by
          have : (0:ℚ) ≤ (s.length : ℚ) - 1 := le_trans h0 han
          have : (1:ℚ) ≤ (s.length : ℚ) := by linarith
          exact_mod_cast this
        omega
      have hloN : ⌊a⌋.toNat ≤ ⌈a⌉.toNat := by
        have := Int.floor_le_ceil a
        omega
      have hvle : s.getD ⌊a⌋.toNat 0 ≤ s.getD ⌈a⌉.toNat 0 :=
        sorted_getD_le s hs _ _ hloN hhiN
      have ha' : interpAt s a
          = s.getD ⌊a⌋.toNat 0 * (1 - ((a - ⌊a⌋ : ℚ) : ℝ))
            + s.getD ⌈a⌉.toNat 0 * ((a - ⌊a⌋ : ℚ) : ℝ) := by
        unfold interpAt
        rw [if_neg hae]
      have hb' : interpAt s b
          = s.getD ⌊a⌋.toNat 0 * (1 - ((b - ⌊a⌋ : ℚ) : ℝ))
            + s.getD ⌈a⌉.toNat 0 * ((b - ⌊a⌋ : ℚ) : ℝ) := by
        unfold interpAt
        rw [if_neg (hffloor ▸ hbe), hffloor]
        have : ⌈b⌉ = ⌈a⌉ := by omega
        rw [this]
      rw [ha', hb']
      have hw : ((a - ⌊a⌋ : ℚ) : ℝ) ≤ ((b - ⌊a⌋ : ℚ) : ℝ) := by
        have : (a - ⌊a⌋ : ℚ) ≤ (b - ⌊a⌋ : ℚ) := by linarith
        exact_mod_cast this
      nlinarith

lemma percentile_mono (s : List ℝ) (hs : s.Sorted (· ≤ ·)) (p q : ℚ)
    (hp : 0 ≤ p) (hq : q ≤ 1) (hpq : p ≤ q) :
    percentile s p ≤ percentile s q := by
  unfold percentile
  by_cases hnil : s = []
  · rw [if_pos hnil, if_pos hnil]
  · rw [if_neg hnil, if_neg hnil]
    have hn1 : 1 ≤ s.length := List.length_pos.mpr hnil
    have hcast : (1 : ℚ) ≤ (s.length : ℚ) := by exact_mod_cast hn1
    apply interpAt_mono s hs
    · exact mul_nonneg (by linarith) hp
    · exact mul_le_mul_of_nonneg_left hpq (by linarith)
    · nlinarith

/-! ### Field accessors of a run (definitional) -/

lemma monteCarloProject_confidence (input : ProjectionInputs) (ambient : ℕ → ℝ) :
    (monteCarloProject input ambient).confidence
      = confidenceScore ((mcHits input ambient : ℝ) / (input.simulations : ℝ))
          (cleanOf input.series).length
          (volatilityBucket (stdev (cleanOf input.series)) (mean (cleanOf input.series))) :=
  rfl

lemma monteCarloProject_probability (input : ProjectionInputs) (ambient : ℕ → ℝ) :
    (monteCarloProject input ambient).probability
      = (round (((mcHits input ambient : ℝ) / (input.simulations : ℝ)) * 1000) : ℤ) / 10 :=
  rfl

lemma monteCarloProject_floor (input : ProjectionInputs) (ambient : ℕ → ℝ) :
    (monteCarloProject input ambient).floor
      = round1 (percentile (sortAsc (mcSamples input ambient)) (1 / 10)) :=
  rfl

lemma monteCarloProject_median (input : ProjectionInputs) (ambient : ℕ → ℝ) :
    (monteCarloProject input ambient).median
      = round1 (percentile (sortAsc (mcSamples input ambient)) (1 / 2)) :=
  rfl

lemma monteCarloProject_ceiling (input : ProjectionInputs) (ambient : ℕ → ℝ) :
    (monteCarloProject input ambient).ceiling
      = round1 (percentile (sortAsc (mcSamples input ambient)) (9 / 10)) :=
  rfl

lemma monteCarloProject_stdev (input : ProjectionInputs) (ambient : ℕ → ℝ) :
    (monteCarloProject input ambient).stdev = round1 (stdev (cleanOf input.series)) :=
  rfl

lemma monteCarloProject_samplesPreview (input : ProjectionInputs) (ambient : ℕ → ℝ) :
    (monteCarloProject input ambient).samplesPreview
      = (sortAsc (mcSamples input ambient)).take 50 :=
  rfl

/-! ### Probability and confidence bounds -/

lemma mcSamples_length (input : ProjectionInputs) (ambient : ℕ → ℝ) :
    (mcSamples input ambient).length = input.simulations := by
  simp [mcSamples, runSamples]

lemma mcProb_bounds (input : ProjectionInputs) (ambient : ℕ → ℝ) :
    0 ≤ (mcHits input ambient : ℝ) / (input.simulations : ℝ) ∧
      (mcHits input ambient : ℝ) / (input.simulations : ℝ) ≤ 1 := by
  constructor
  · positivity
  · have hle : mcHits input ambient ≤ input.simulations := by
      have h := countHits_le_length input.line input.direction (mcSamples input ambient)
      rw [mcSamples_length] at h
      exact h
    rcases Nat.eq_zero_or_pos input.simulations with h0 | hpos
    · simp [h0]
    · rw [div_le_one (by exact_mod_cast hpos)]
      exact_mod_cast hle

lemma volPenalty_bounds (v : Volatility) : 0.55 ≤ volPenalty v ∧ volPenalty v ≤ 1 := by
  rcases v with _ | _ | _ <;> norm_num [volPenalty]

lemma confidenceScore_eq (p : ℝ) (n : ℕ) (v : Volatility) :
    confidenceScore p n v
      = round ((100 * (|p - 0.5| * 2) * 0.65
          + 100 * clamp ((n : ℝ) / 20) 0 1 * 0.35) * volPenalty v) :=
  rfl

lemma confidenceScore_le_100 (p : ℝ) (n : ℕ) (v : Volatility)
    (hp0 : 0 ≤ p) (hp1 : p ≤ 1) : confidenceScore p n v ≤ 100 := by
  rw [confidenceScore_eq]
  have hps1 : |p - 0.5| * 2 ≤ 1 := by
    have : |p - 0.5| ≤ 0.5 := abs_le.mpr ⟨by linarith, by linarith⟩
    linarith
  have hps0 : 0 ≤ |p - 0.5| * 2 := by positivity
  have hss0 : (0 : ℝ) ≤ clamp ((n : ℝ) / 20) 0 1 := le_max_left _ _
  have hss1 : clamp ((n : ℝ) / 20) 0 1 ≤ 1 := max_le (by norm_num) (min_le_left _ _)
  rcases volPenalty_bounds v with ⟨hpen0, hpen1⟩
  have hb : (100 * (|p - 0.5| * 2) * 0.65
      + 100 * clamp ((n : ℝ) / 20) 0 1 * 0.35) * volPenalty v ≤ 100 := by nlinarith
  calc round ((100 * (|p - 0.5| * 2) * 0.65
        + 100 * clamp ((n : ℝ) / 20) 0 1 * 0.35) * volPenalty v)
      ≤ round ((100 : ℝ)) := round_mono hb
    _ = 100 := by simp

lemma one_le_confidenceScore (p : ℝ) (n : ℕ) (v : Volatility)
    (hn : 1 ≤ n) : 1 ≤ confidenceScore p n v := by
  rw [confidenceScore_eq]
  have hps0 : 0 ≤ |p - 0.5| * 2 := by positivity
  have hssl : (1 : ℝ) / 20 ≤ clamp ((n : ℝ) / 20) 0 1 := by
    have hn' : (1 : ℝ) ≤ (n : ℝ) := by exact_mod_cast hn
    have h1 : (1 : ℝ) / 20 ≤ min 1 ((n : ℝ) / 20) :=
      le_min (by norm_num) (by linarith)
    exact h1.trans (le_max_right _ _)
  rcases volPenalty_bounds v with ⟨hpen0, hpen1⟩
  have hb : (0.9625 : ℝ) ≤ (100 * (|p - 0.5| * 2) * 0.65
      + 100 * clamp ((n : ℝ) / 20) 0 1 * 0.35) * volPenalty v := by nlinarith
  have h1 : (1 : ℤ) = round ((0.9625 : ℝ)) := by
    rw [round_eq]
    norm_num
  calc (1 : ℤ) = round ((0.9625 : ℝ)) := h1
    _ ≤ _ := round_mono hb

/-! ### Claim theorems -/

lemma variance_nonneg (arr : List ℝ) : 0 ≤ variance arr := by
  unfold variance
  by_cases h : arr.length < 2
  · rw [if_pos h]
  · rw [if_neg h]
    apply div_nonneg
    · apply List.sum_nonneg
      intro x hx
      rcases List.mem_map.mp hx with ⟨v, _, rfl⟩
      exact mul_self_nonneg _
    · push_neg at h
      have h2 : (2 : ℝ) ≤ (arr.length : ℝ) := by exact_mod_cast h
      linarith

/-- Claim C4: in every run, a simulated sample counts as a hit exactly when it
is strictly greater than the line (direction `OVER`) or strictly less than the
line (direction `UNDER`); samples equal to the line count toward neither, and
the reported probability is `hits / simulationCount` expressed as a
percentage (rounded to one decimal for display), with pushes left in the
denominator as non-hits. -/
theorem claim4_strict_hits_probability (input : ProjectionInputs) (ambient : ℕ → ℝ) :
    (monteCarloProject input ambient).probability
        = (round (((mcHits input ambient : ℝ) / (input.simulations : ℝ)) * 1000) : ℤ) / 10 ∧
    (input.direction = .OVER →
      mcHits input ambient
        = (mcSamples input ambient).countP fun v => decide (input.line < v)) ∧
    (input.direction = .UNDER →
      mcHits input ambient
        = (mcSamples input ambient).countP fun v => decide (v < input.line)) := by
  refine ⟨monteCarloProject_probability input ambient, ?_, ?_⟩
  · intro h
    unfold mcHits
    rw [h]
    exact countHits_over _ _
  · intro h
    unfold mcHits
    rw [h]
    exact countHits_under _ _

/-- Concrete engine input with direction `OVER` (for witnesses). -/
noncomputable def overInput : ProjectionInputs :=
  { series := [JsNum.fin 6], line := 3, direction := .OVER, simulations := 4 }

/-- Concrete engine input with direction `UNDER` (for witnesses). -/
noncomputable def underInput : ProjectionInputs :=
  { series := [JsNum.fin 6], line := 3, direction := .UNDER, simulations := 4 }

/-- Witness for C4 at concrete `OVER` and `UNDER` inputs. -/
theorem claim4_strict_hits_probability_wit :
    mcHits overInput (fun _ => 0)
        = (mcSamples overInput (fun _ => 0)).countP (fun v => decide (overInput.line < v)) ∧
    mcHits underInput (fun _ => 0)
        = (mcSamples underInput (fun _ => 0)).countP fun v => decide (v < underInput.line) :=
  ⟨(claim4_strict_hits_probability overInput (fun _ => 0)).2.1 rfl,
   (claim4_strict_hits_probability underInput (fun _ => 0)).2.2 rfl⟩

/-- Claim C5: the engine's standard deviation is the sample standard
deviation with Bessel's correction — variance is the sum of squared
deviations from the mean divided by `n - 1` — when `n ≥ 2`, is exactly `0`
when `n < 2`, and the reported `stdev` field is that value rounded to one
decimal. -/
theorem claim5_bessel_stdev :
    (∀ arr : List ℝ, 2 ≤ arr.length →
        0 ≤ variance arr ∧
        variance arr = ((arr.map fun v => (v - mean arr) * (v - mean arr)).sum)
            / ((arr.length : ℝ) - 1) ∧
        stdev arr * stdev arr = variance arr) ∧
    (∀ arr : List ℝ, arr.length < 2 → stdev arr = 0) ∧
    (∀ (input : ProjectionInputs) (ambient : ℕ → ℝ),
        (monteCarloProject input ambient).stdev = round1 (stdev (cleanOf input.series))) := by
  refine ⟨?_, ?_, ?_⟩
  · intro arr h2
    refine ⟨variance_nonneg arr, ?_, Real.mul_self_sqrt (variance_nonneg arr)⟩
    unfold variance
    rw [if_neg (not_lt.mpr h2)]
  · intro arr hlt
    unfold stdev variance
    rw [if_pos hlt, Real.sqrt_zero]
  · intro input ambient
    exact monteCarloProject_stdev input ambient

/-- Witness for C5 at the series `[1, 2, 3]` (Bessel case) and `[5]`
(degenerate case). -/
theorem claim5_bessel_stdev_wit :
    (stdev [(1 : ℝ), 2, 3] * stdev [(1 : ℝ), 2, 3]
        = (([(1 : ℝ), 2, 3].map fun v =>
              (v - mean [(1 : ℝ), 2, 3]) * (v - mean [(1 : ℝ), 2, 3])).sum)
            / (([(1 : ℝ), 2, 3].length : ℝ) - 1)) ∧
    stdev [(5 : ℝ)] = 0 := by
  refine ⟨?_, claim5_bessel_stdev.2.1 [(5 : ℝ)] (by norm_num)⟩
  have h := claim5_bessel_stdev.1 [(1 : ℝ), 2, 3] (by norm_num)
  rw [h.2.2, h.2.1]

/-- Claim C7: for every result the engine produces, the reported percentiles
are monotone: `floor ≤ median ≤ ceiling`, where the three fields are the
type-7 interpolated 10th/50th/90th percentiles of the sorted sample set,
rounded to one decimal place. -/
theorem claim7_percentile_monotone (input : ProjectionInputs) (ambient : ℕ → ℝ) :
    (monteCarloProject input ambient).floor ≤ (monteCarloProject input ambient).median ∧
    (monteCarloProject input ambient).median ≤ (monteCarloProject input ambient).ceiling := by
  rw [monteCarloProject_floor, monteCarloProject_median, monteCarloProject_ceiling]
  have hs := sortAsc_sorted (mcSamples input ambient)
  exact ⟨round1_mono (percentile_mono _ hs (1 / 10) (1 / 2)
      (by norm_num) (by norm_num) (by norm_num)),
    round1_mono (percentile_mono _ hs (1 / 2) (9 / 10)
      (by norm_num) (by norm_num) (by norm_num))⟩

/-- Claim C9: with a seed supplied, the engine's output is a function of the
`ProjectionInput` alone — it does not consult the ambient (process-wide)
randomness source, so two invocations with identical input and seed agree in
every field. -/
theorem claim9_seeded_determinism (input : ProjectionInputs)
    (ambient1 ambient2 : ℕ → ℝ) (s : ℕ) (h : input.rngSeed = some s) :
    monteCarloProject input ambient1 = monteCarloProject input ambient2 := by
  unfold monteCarloProject mcDraws
  rw [h]

/-- Concrete seeded engine input (for the C9 witness). -/
noncomputable def seededInput : ProjectionInputs :=
  { series := [JsNum.fin 7, JsNum.fin 9], line := 5, direction := .OVER,
    simulations := 100, clampMin := 0, rngSeed := some 42 }

/-- Witness for C9: the seeded run is unchanged under two different ambient
randomness streams. -/
theorem claim9_seeded_determinism_wit :
    seededInput.rngSeed = some 42 ∧
    monteCarloProject seededInput (fun _ => 0) = monteCarloProject seededInput (fun _ => 1) :=
  ⟨rfl, claim9_seeded_determinism seededInput (fun _ => 0) (fun _ => 1) 42 rfl⟩

/-- Claim C2 (amended): the engine does not clamp `simulationCount` at all —
it runs exactly the caller-supplied number of simulations (default 5000), so a
tiny or zero count is used verbatim rather than being raised into a
`[1000, 20000]` range. -/
theorem claim2_simulation_count_used_verbatim (input : ProjectionInputs) (ambient : ℕ → ℝ) :
    (mcSamples input ambient).length = input.simulations ∧
    (monteCarloProject input ambient).samplesPreview.length = min 50 input.simulations := by
  refine ⟨mcSamples_length input ambient, ?_⟩
  rw [monteCarloProject_samplesPreview, List.length_take, sortAsc_length, mcSamples_length]

/-- Concrete input with `simulations = 1` (for the C2 counterexample). -/
noncomputable def tinySimInput : ProjectionInputs :=
  { series := [JsNum.fin 10], line := 10, direction := .OVER, simulations := 1 }

/-- Counterexample for C2: with `simulations = 1` the run produces exactly one
sample, while with any count in the allegedly clamped-to range `[1000, 20000]`
(shown at both endpoints) the preview holds 50 samples — so a tiny count is
not raised into that range. -/
theorem claim2_no_clamp_cex :
    (monteCarloProject tinySimInput (fun _ => 0)).samplesPreview.length = 1 ∧
    (monteCarloProject { tinySimInput with simulations := 1000 } (fun _ => 0)).samplesPreview.length = 50 ∧
    (monteCarloProject { tinySimInput with simulations := 20000 } (fun _ => 0)).samplesPreview.length = 50 := by
  refine ⟨?_, ?_, ?_⟩ <;>
    · rw [monteCarloProject_samplesPreview, List.length_take, sortAsc_length, mcSamples_length]
      simp [tinySimInput]

/-! ### Cleaning-step lemmas (for C10) -/

lemma cleanOf_append (a b : List JsNum) :
    cleanOf (a ++ b) = cleanOf a ++ cleanOf b := by
  unfold cleanOf
  rw [List.map_append, List.filter_append]

lemma cleanOf_neg (v : ℝ) (hv : v < 0) : cleanOf [JsNum.fin v] = [] := by
  have h : ¬ (0 ≤ v) := not_le.mpr hv
  simp [cleanOf, JsNum.coerce, List.filter_cons, h]

lemma coerce_of_nonfinite (j : JsNum) (hj : j.isFinite = false) : j.coerce = 0 := by
  cases j with
  | fin v => simp [JsNum.isFinite] at hj
  | nan => rfl
  | posInf => rfl
  | negInf => rfl

lemma cleanOf_nonfinite (j : JsNum) (hj : j.isFinite = false) :
    cleanOf [j] = cleanOf [JsNum.fin 0] := by
  unfold cleanOf
  simp only [List.map_cons, List.map_nil]
  rw [coerce_of_nonfinite j hj]
  rfl

lemma monteCarloProject_series_congr (input : ProjectionInputs) (ambient : ℕ → ℝ)
    (s1 s2 : List JsNum) (h : cleanOf s1 = cleanOf s2) :
    monteCarloProject { input with series := s1 } ambient
      = monteCarloProject { input with series := s2 } ambient := by
  unfold monteCarloProject
  dsimp only
  rw [h]
  rfl

/-- Claim C10: the engine first coerces every non-finite series entry to `0`
and then silently deletes every strictly negative entry, so every statistic is
computed over the shortened subsequence: a series containing a negative value
yields the same result as the series with that value deleted, and a
non-finite entry behaves exactly like a literal `0` entry. -/
theorem claim10_clean_semantics :
    (∀ (input : ProjectionInputs) (ambient : ℕ → ℝ) (pre post : List JsNum) (v : ℝ),
        v < 0 →
        monteCarloProject { input with series := pre ++ [JsNum.fin v] ++ post } ambient
          = monteCarloProject { input with series := pre ++ post } ambient) ∧
    (∀ (input : ProjectionInputs) (ambient : ℕ → ℝ) (pre post : List JsNum) (j : JsNum),
        j.isFinite = false →
        monteCarloProject { input with series := pre ++ [j] ++ post } ambient
          = monteCarloProject { input with series := pre ++ [JsNum.fin 0] ++ post } ambient) := by
  constructor
  · intro input ambient pre post v hv
    apply monteCarloProject_series_congr
    rw [cleanOf_append, cleanOf_append, cleanOf_append, cleanOf_neg v hv]
    simp
  · intro input ambient pre post j hj
    apply monteCarloProject_series_congr
    rw [cleanOf_append, cleanOf_append, cleanOf_append, cleanOf_append,
      cleanOf_nonfinite j hj]

/-- Base engine input (for the C10 witness). -/
noncomputable def baseInput : ProjectionInputs :=
  { series := [], line := 4, direction := .OVER }

/-- Witness for C10: deleting the negative entry `-3`, and replacing a `NaN`
entry by `0`, leave the result unchanged at concrete inputs. -/
theorem claim10_clean_semantics_wit :
    monteCarloProject { baseInput with series := [JsNum.fin 5] ++ [JsNum.fin (-3)] ++ [] }
        (fun _ => 0)
      = monteCarloProject { baseInput with series := [JsNum.fin 5] ++ [] } (fun _ => 0) ∧
    monteCarloProject { baseInput with series := [] ++ [JsNum.nan] ++ [JsNum.fin 2] }
        (fun _ => 0)
      = monteCarloProject { baseInput with series := [] ++ [JsNum.fin 0] ++ [JsNum.fin 2] }
        (fun _ => 0) :=
  ⟨claim10_clean_semantics.1 baseInput (fun _ => 0) [JsNum.fin 5] [] (-3) (by norm_num),
   claim10_clean_semantics.2 baseInput (fun _ => 0) [] [JsNum.fin 2] JsNum.nan rfl⟩

/-- Claim C3 (amended): when the series stdev is 0 the substituted spread is
`max(0.75, 0.10 * mean)`: it scales with the mean only once the mean exceeds
7.5, and is the bare constant `0.75` for every flat series with mean at or
below 7.5. -/
theorem claim3_min_spread_formula (c : List ℝ) (h : stdev c = 0) :
    simSdOf c = max 0.75 (mean c * 0.10) ∧
    (7.5 ≤ mean c → simSdOf c = mean c * 0.10) ∧
    (mean c * 0.10 ≤ 0.75 → simSdOf c = 0.75) := by
  have h1 : simSdOf c = max 0.75 (mean c * 0.10) := by
    unfold simSdOf
    rw [if_pos h]
  refine ⟨h1, ?_, ?_⟩
  · intro h75
    rw [h1, max_eq_right (by linarith)]
  · intro h75
    rw [h1, max_eq_left h75]

/-- Witness for C3 at the flat series `[10, 10]`, whose substituted spread
does scale with the mean. -/
theorem claim3_min_spread_formula_wit :
    stdev [(10 : ℝ), 10] = 0 ∧ simSdOf [(10 : ℝ), 10] = mean [(10 : ℝ), 10] * 0.10 := by
  have h0 : stdev [(10 : ℝ), 10] = 0 := stdev_replicate 2 10
  have hm : mean [(10 : ℝ), 10] = 10 := mean_replicate 2 10 (by norm_num)
  refine ⟨h0, (claim3_min_spread_formula [(10 : ℝ), 10] h0).2.1 ?_⟩
  rw [hm]
  norm_num

/-- Counterexample for C3: the flat series `[2, 2]` and `[5, 5]` have
different means (2 and 5) but receive the identical substituted spread
`0.75` — the spread is a bare constant below mean 7.5, not proportional to
the mean. -/
theorem claim3_constant_spread_cex :
    stdev [(2 : ℝ), 2] = 0 ∧ stdev [(5 : ℝ), 5] = 0 ∧
    mean [(2 : ℝ), 2] = 2 ∧ mean [(5 : ℝ), 5] = 5 ∧
    simSdOf [(2 : ℝ), 2] = 0.75 ∧ simSdOf [(5 : ℝ), 5] = 0.75 := by
  have h2 : stdev [(2 : ℝ), 2] = 0 := stdev_replicate 2 2
  have h5 : stdev [(5 : ℝ), 5] = 0 := stdev_replicate 2 5
  have hm2 : mean [(2 : ℝ), 2] = 2 := mean_replicate 2 2 (by norm_num)
  have hm5 : mean [(5 : ℝ), 5] = 5 := mean_replicate 2 5 (by norm_num)
  refine ⟨h2, h5, hm2, hm5, ?_, ?_⟩
  · unfold simSdOf
    rw [if_pos h2, hm2]
    norm_num
  · unfold simSdOf
    rw [if_pos h5, hm5]
    norm_num

/-! ### Cleaning-step evaluation helpers (for concrete runs) -/

lemma cleanOf_replicate_fin (n : ℕ) (v : ℝ) (hv : 0 ≤ v) :
    cleanOf (List.replicate n (JsNum.fin v)) = List.replicate n v := by
  unfold cleanOf
  rw [List.map_replicate]
  rw [show JsNum.coerce (JsNum.fin v) = v from rfl]
  rw [List.filter_replicate, decide_eq_true hv]
  simp

lemma cleanOf_nil : cleanOf [] = [] := rfl

/-- Concrete input attaining confidence 100: twenty identical games of 10
against the line `-1` (every clamped sample exceeds the line). -/
noncomputable def flatTwenty : ProjectionInputs :=
  { series := List.replicate 20 (JsNum.fin 10), line := -1, direction := .OVER }

/-- Claim C1 (amended): the confidence equals
`round(100 * (0.65*probStrength + 0.35*sampleStrength) * volatilityPenalty)`
with no clamping; for every run with a non-empty cleaned series it satisfies
`1 ≤ confidence ≤ 100`, and the value 100 is attained, so a result can be
reported as absolutely certain. -/
theorem claim1_confidence_unclamped_bounds (input : ProjectionInputs) (ambient : ℕ → ℝ)
    (h : cleanOf input.series ≠ []) :
    1 ≤ (monteCarloProject input ambient).confidence ∧
    (monteCarloProject input ambient).confidence ≤ 100 ∧
    (monteCarloProject input ambient).confidence
      = round ((100 * (0.65 * (|(mcHits input ambient : ℝ) / (input.simulations : ℝ) - 0.5| * 2)
          + 0.35 * clamp (((cleanOf input.series).length : ℝ) / 20) 0 1))
          * volPenalty (volatilityBucket (stdev (cleanOf input.series))
              (mean (cleanOf input.series)))) := by
  have hp := mcProb_bounds input ambient
  have hn : 1 ≤ (cleanOf input.series).length := List.length_pos.mpr h
  rw [monteCarloProject_confidence]
  refine ⟨one_le_confidenceScore _ _ _ hn, confidenceScore_le_100 _ _ _ hp.1 hp.2, ?_⟩
  rw [confidenceScore_eq]
  congr 1
  ring

/-- Witness for C1 at a one-game series. -/
theorem claim1_confidence_unclamped_bounds_wit :
    cleanOf [JsNum.fin 10] ≠ [] ∧
    1 ≤ (monteCarloProject { series := [JsNum.fin 10], line := 3, direction := .OVER }
        (fun _ => 0)).confidence ∧
    (monteCarloProject { series := [JsNum.fin 10], line := 3, direction := .OVER }
        (fun _ => 0)).confidence ≤ 100 := by
  have hc : cleanOf [JsNum.fin 10] = [(10 : ℝ)] := cleanOf_replicate_fin 1 10 (by norm_num)
  have hne : cleanOf [JsNum.fin 10] ≠ [] := by
    rw [hc]
    simp
  have h := claim1_confidence_unclamped_bounds
    { series := [JsNum.fin 10], line := 3, direction := .OVER } (fun _ => 0) hne
  exact ⟨hne, h.1, h.2.1⟩

/-- Counterexample for C1: at the concrete non-empty input `flatTwenty`
(with the all-zero draw stream) the engine reports confidence exactly 100,
which the claimed clamp to `[1, 99]` forbids. -/
theorem claim1_confidence_can_reach_100 :
    (monteCarloProject flatTwenty (fun _ => 0)).confidence = 100 ∧
    ¬ (monteCarloProject flatTwenty (fun _ => 0)).confidence ≤ 99 := by
  have hclean : cleanOf flatTwenty.series = List.replicate 20 (10 : ℝ) :=
    cleanOf_replicate_fin 20 10 (by norm_num)
  have hmean : mean (cleanOf flatTwenty.series) = 10 := by
    rw [hclean]
    exact mean_replicate 20 10 (by norm_num)
  have hsd : stdev (cleanOf flatTwenty.series) = 0 := by
    rw [hclean]
    exact stdev_replicate 20 10
  have hsimSd : simSdOf (cleanOf flatTwenty.series) = 1 := by
    unfold simSdOf
    rw [if_pos hsd, hmean]
    norm_num
  have hr10 : round1 (max (0 : ℝ) 10) = 10 := by
    rw [max_eq_right (by norm_num : (0:ℝ) ≤ 10)]
    unfold round1
    norm_num [round_eq]
  have hsamples : mcSamples flatTwenty (fun _ => 0) = List.replicate 5000 (10 : ℝ) := by
    unfold mcSamples
    rw [hmean, hsimSd]
    rw [show mcDraws flatTwenty (fun _ => 0) = (fun _ => (0 : ℝ)) from rfl]
    rw [show flatTwenty.clampMin = 0 from rfl, show flatTwenty.simulations = 5000 from rfl]
    rw [runSamples_zeroDraws, hr10]
  have hhits : mcHits flatTwenty (fun _ => 0) = 5000 := by
    unfold mcHits
    rw [hsamples]
    rw [show flatTwenty.direction = PropDirection.OVER from rfl]
    rw [countHits_over, List.countP_replicate]
    rw [show flatTwenty.line = (-1 : ℝ) from rfl]
    rw [decide_eq_true (by norm_num : (-1 : ℝ) < 10)]
    simp
  have hvol : volatilityBucket (stdev (cleanOf flatTwenty.series))
      (mean (cleanOf flatTwenty.series)) = .LOW := by
    rw [hsd, hmean]
    unfold volatilityBucket
    rw [if_pos]
    norm_num
  have hconf : (monteCarloProject flatTwenty (fun _ => 0)).confidence = 100 := by
    rw [monteCarloProject_confidence, hhits, hvol, hclean]
    rw [show flatTwenty.simulations = 5000 from rfl]
    rw [confidenceScore_eq]
    rw [show volPenalty Volatility.LOW = 1 from rfl]
    rw [List.length_replicate]
    rw [show ((5000 : ℕ) : ℝ) = 5000 from by norm_num]
    rw [show |(5000 : ℝ) / 5000 - 0.5| * 2 = 1 from by
      rw [show (5000 : ℝ) / 5000 - 0.5 = 0.5 by norm_num]
      rw [abs_of_nonneg (by norm_num : (0 : ℝ) ≤ 0.5)]
      norm_num]
    rw [show clamp ((20 : ℕ) / 20 : ℝ) 0 1 = 1 from by
      unfold clamp
      norm_num]
    norm_num [round_eq]
  exact ⟨hconf, by rw [hconf]; norm_num⟩

/-- The empty-series input of end-to-end scenario C. -/
noncomputable def emptyInput : ProjectionInputs :=
  { series := [], line := 10, direction := .OVER }

/-- Claim C8 (amended): on the empty series with line 10 and direction
`OVER`, the engine still produces a well-formed result (probability within
`[0, 100]`) via the minimum-spread substitution, but its confidence is not
near the floor value 1: it is `round(65 * probStrength) ≤ 65`, and reaches
65 when no sample exceeds the line. -/
theorem claim8_empty_series_result (ambient : ℕ → ℝ) :
    0 ≤ (monteCarloProject emptyInput ambient).probability ∧
    (monteCarloProject emptyInput ambient).probability ≤ 100 ∧
    0 ≤ (monteCarloProject emptyInput ambient).confidence ∧
    (monteCarloProject emptyInput ambient).confidence ≤ 65 := by
  have hp := mcProb_bounds emptyInput ambient
  have hprob : (monteCarloProject emptyInput ambient).probability
      = (round (((mcHits emptyInput ambient : ℝ) / (emptyInput.simulations : ℝ)) * 1000) : ℤ) / 10 :=
    monteCarloProject_probability emptyInput ambient
  refine ⟨?_, ?_, ?_, ?_⟩
  · rw [hprob]
    have h0 : (0 : ℤ) = round ((0 : ℝ)) := by simp
    have hr : (0 : ℤ) ≤ round (((mcHits emptyInput ambient : ℝ) / (emptyInput.simulations : ℝ)) * 1000) := by
      rw [h0]
      exact round_mono (by nlinarith [hp.1])
    have hr' : (0 : ℝ) ≤ (round (((mcHits emptyInput ambient : ℝ) / (emptyInput.simulations : ℝ)) * 1000) : ℤ) := by
      exact_mod_cast hr
    linarith
  · rw [hprob]
    have hr : round (((mcHits emptyInput ambient : ℝ) / (emptyInput.simulations : ℝ)) * 1000)
        ≤ round ((1000 : ℝ)) := round_mono (by nlinarith [hp.2])
    have h1000 : round ((1000 : ℝ)) = 1000 := by simp
    have hr' : (round (((mcHits emptyInput ambient : ℝ) / (emptyInput.simulations : ℝ)) * 1000) : ℝ)
        ≤ 1000 := by
      rw [h1000] at hr
      exact_mod_cast hr
    linarith
  · rw [monteCarloProject_confidence, confidenceScore_eq]
    have h0 : (0 : ℤ) = round ((0 : ℝ)) := by simp
    rw [h0]
    apply round_mono
    have hps0 : 0 ≤ |(mcHits emptyInput ambient : ℝ) / (emptyInput.simulations : ℝ) - 0.5| * 2 := by
      positivity
    have hss0 : (0 : ℝ) ≤ clamp (((cleanOf emptyInput.series).length : ℝ) / 20) 0 1 :=
      le_max_left _ _
    rcases volPenalty_bounds (volatilityBucket (stdev (cleanOf emptyInput.series))
      (mean (cleanOf emptyInput.series))) with ⟨hpen0, _⟩
    nlinarith
  · rw [monteCarloProject_confidence, confidenceScore_eq]
    have hlen : (cleanOf emptyInput.series).length = 0 := by
      rw [show cleanOf emptyInput.series = [] from rfl]
      rfl
    rw [hlen]
    have hclamp : clamp ((0 : ℕ) / 20 : ℝ) 0 1 = 0 := by
      unfold clamp
      norm_num
    rw [hclamp]
    have hps1 : |(mcHits emptyInput ambient : ℝ) / (emptyInput.simulations : ℝ) - 0.5| * 2 ≤ 1 := by
      have hp := mcProb_bounds emptyInput ambient
      have : |(mcHits emptyInput ambient : ℝ) / (emptyInput.simulations : ℝ) - 0.5| ≤ 0.5 :=
        abs_le.mpr ⟨by linarith [hp.1], by linarith [hp.2]⟩
      linarith
    have hps0 : 0 ≤ |(mcHits emptyInput ambient : ℝ) / (emptyInput.simulations : ℝ) - 0.5| * 2 := by
      positivity
    rcases volPenalty_bounds (volatilityBucket (stdev (cleanOf emptyInput.series))
      (mean (cleanOf emptyInput.series))) with ⟨hpen0, hpen1⟩
    have h65 : (65 : ℤ) = round ((65 : ℝ)) := by simp
    rw [h65]
    apply round_mono
    nlinarith

/-- Counterexample for C8: at the empty series, line 10, direction `OVER`,
with the all-zero draw stream (every sample is 0 and misses the line), the
reported confidence is 65 — far from the claimed floor value near 1. -/
theorem claim8_confidence_is_65 :
    (monteCarloProject emptyInput (fun _ => 0)).confidence = 65 ∧
    ¬ (monteCarloProject emptyInput (fun _ => 0)).confidence ≤ 2 := by
  have hclean : cleanOf emptyInput.series = ([] : List ℝ) := rfl
  have hmean : mean (cleanOf emptyInput.series) = 0 := by
    rw [hclean]
    rfl
  have hsd : stdev (cleanOf emptyInput.series) = 0 := by
    rw [hclean]
    unfold stdev variance
    norm_num
  have hsimSd : simSdOf (cleanOf emptyInput.series) = 0.75 := by
    unfold simSdOf
    rw [if_pos hsd, hmean]
    norm_num
  have hr0 : round1 (max (0 : ℝ) (0 + 0 * 0.75)) = 0 := by
    norm_num
    unfold round1
    norm_num [round_eq]
  have hsamples : mcSamples emptyInput (fun _ => 0) = List.replicate 5000 (0 : ℝ) := by
    unfold mcSamples
    rw [hmean, hsimSd]
    rw [show mcDraws emptyInput (fun _ => 0) = (fun _ => (0 : ℝ)) from rfl]
    rw [show emptyInput.clampMin = 0 from rfl, show emptyInput.simulations = 5000 from rfl]
    rw [runSamples_zeroDraws]
    congr 1
    unfold round1
    norm_num [round_eq]
  have hhits : mcHits emptyInput (fun _ => 0) = 0 := by
    unfold mcHits
    rw [hsamples]
    rw [show emptyInput.direction = PropDirection.OVER from rfl]
    rw [countHits_over, List.countP_replicate]
    rw [show emptyInput.line = (10 : ℝ) from rfl]
    rw [decide_eq_false (by norm_num : ¬ ((10 : ℝ) < 0))]
    simp
  have hvol : volatilityBucket (stdev (cleanOf emptyInput.series))
      (mean (cleanOf emptyInput.series)) = .LOW := by
    rw [hsd, hmean]
    unfold volatilityBucket
    rw [if_pos]
    norm_num
  have hconf : (monteCarloProject emptyInput (fun _ => 0)).confidence = 65 := by
    rw [monteCarloProject_confidence, hhits, hvol, hclean]
    rw [show emptyInput.simulations = 5000 from rfl]
    rw [confidenceScore_eq]
    rw [show volPenalty Volatility.LOW = 1 from rfl]
    rw [show ((0 : ℕ) : ℝ) / ((5000 : ℕ) : ℝ) = 0 from by norm_num]
    rw [show |(0 : ℝ) - 0.5| * 2 = 1 from by
      rw [show (0 : ℝ) - 0.5 = -(0.5) by norm_num]
      rw [abs_neg, abs_of_nonneg (by norm_num : (0 : ℝ) ≤ 0.5)]
      norm_num]
    rw [show clamp ((List.length ([] : List ℝ) : ℝ) / 20) 0 1 = 0 from by
      unfold clamp
      norm_num]
    norm_num [round_eq]
  exact ⟨hconf, by rw [hconf]; norm_num⟩

/-- Claim C6: for every input list of game logs and stat key, the prepared
series is exactly the stat values of the records with strictly positive
minutes, ordered by date descending with equal-date ties kept in input order
(the sorted list is a permutation of the filtered list, is sorted descending,
and its equal-date sublists coincide with the input's), and the empty input
yields the empty series without error. -/
theorem claim6_series_preparer (logs : List GameLog) (k : StatType) :
    (seriesFromLogs logs k).series
        = (sortLogsDesc (filterPlayableLogs logs)).map (fun g => statValue g k) ∧
    filterPlayableLogs logs = logs.filter (fun g => decide (0 < g.minutes)) ∧
    (sortLogsDesc (filterPlayableLogs logs)).Perm (filterPlayableLogs logs) ∧
    (sortLogsDesc (filterPlayableLogs logs)).Sorted (fun a b => b.date ≤ a.date) ∧
    (∀ d : ℕ, (sortLogsDesc (filterPlayableLogs logs)).filter (fun g => decide (g.date = d))
        = (filterPlayableLogs logs).filter fun g => decide (g.date = d)) ∧
    seriesFromLogs [] k = ⟨[], [], []⟩ :=
  ⟨rfl, rfl, sortLogsDesc_perm _, sortLogsDesc_sorted _,
   fun d => sortLogsDesc_filter_date _ d, rfl⟩

end SlateRanker
